import Mathlib

/-!
Verification of the qwuack Redis-backed ledger accumulator
(source: src/poc/example.ts, Ledger class; src/unnamed/part_002, ledger-optimized.ts).

The embedding:

* The external key-value store (Redis) is modelled from the spec (sections 4.1 and 6):
  three namespaces keyed by full derived key strings — hashes of serialized entries,
  hashes of numeric running sums, and plain keys holding the numeric running total.
  Serialization of entries is out of scope per the spec (section 1: "serialization
  framing beyond entry-to-bytes" is external), so an entries hash stores LedgerEntry
  values directly; numeric cells hold their exact numeric value rather than a
  formatted string ("string-encoded running total", section 6).
* The JavaScript amount conversion parseFloat(entry.amount) from the source is
  modelled faithfully: longest numeric prefix, NaN when no numeric prefix exists,
  and rounding of the exact decimal value to the nearest IEEE-754 binary64 value
  (round to nearest, ties to even; overflow to infinity).
* The store's increment primitive is modelled from the spec: "all
  increments/decrements are performed as exact decimal operations at the store
  boundary" (section 4.2) — the cell's value is incremented exactly by the numeric
  delta the ledger passes in (which is the parseFloat image of the amount string).

All arithmetic on ℚ inside executable definitions goes through mkRat and integer
arithmetic, because the library's Rat.add and Rat.mul are irreducible and would
block kernel evaluation of concrete witnesses.
-/

set_option maxRecDepth 10000

/-- Kernel-computable addition on ℚ; agrees with the ordinary addition. -/
def qAdd (a b : ℚ) : ℚ := mkRat (a.num * b.den + b.num * a.den) (a.den * b.den)

theorem qAdd_eq (a b : ℚ) : qAdd a b = a + b := (Rat.add_def' a b).symm

/-- A JavaScript number as it flows from parseFloat into the store's numeric
cells: NaN, a signed infinity, or a finite value represented exactly. -/
inductive JsNum where
  | nan : JsNum
  | inf (pos : Bool) : JsNum
  | num (q : ℚ) : JsNum
deriving DecidableEq

/-- The finite-number predicate on JsNum. -/
def JsNum.isNum : JsNum → Bool
  | .num _ => true
  | _ => false

/-- JavaScript unary negation on a number (used by removeEntry's -amount). -/
def JsNum.neg : JsNum → JsNum
  | .nan => .nan
  | .inf p => .inf (!p)
  | .num q => .num (-q)

/-- Modelled from the spec: the store's numeric increment adds the received
delta to the cell's current value as an exact numeric operation ("all
increments/decrements are performed as exact decimal operations at the store
boundary", section 4.2).  Non-finite deltas propagate as in extended real
arithmetic (NaN absorbs; opposite infinities give NaN). -/
def incrAdd : JsNum → JsNum → JsNum
  | .nan, _ => .nan
  | _, .nan => .nan
  | .inf p, .inf q => if p = q then .inf p else .nan
  | .inf p, .num _ => .inf p
  | .num _, .inf p => .inf p
  | .num a, .num b => .num (qAdd a b)

/-! ### parseFloat: decimal lexing and binary64 rounding -/

/-- Split a character list into its leading run of decimal digits and the rest. -/
def takeDigits : List Char → List Char × List Char
  | [] => ([], [])
  | ch :: r =>
    if ch.isDigit then
      let (d, t) := takeDigits r
      (ch :: d, t)
    else ([], ch :: r)

/-- Numeric value of a list of decimal digit characters. -/
def digitsVal (l : List Char) : ℕ :=
  l.foldl (fun acc ch => 10 * acc + (ch.toNat - 48)) 0

/-- Consume an optional exponent part (e or E, optional sign, digits) after a
parsed mantissa, adjusting the decimal scale, as JavaScript parseFloat does: an
exponent marker not followed by digits is ignored. -/
def applyExp (p : ℕ × ℤ) : List Char → ℕ × ℤ
  | ch :: rest =>
    if ch = 'e' ∨ ch = 'E' then
      match rest with
      | '+' :: r2 =>
        let (ds, _) := takeDigits r2
        if ds.isEmpty then p else (p.1, p.2 + (digitsVal ds : ℤ))
      | '-' :: r2 =>
        let (ds, _) := takeDigits r2
        if ds.isEmpty then p else (p.1, p.2 - (digitsVal ds : ℤ))
      | r2 =>
        let (ds, _) := takeDigits r2
        if ds.isEmpty then p else (p.1, p.2 + (digitsVal ds : ℤ))
    else p
  | [] => p

/-- The longest decimal-literal prefix (digits, optional point, optional
exponent) as a magnitude-scale pair: the value is mag * 10 ^ scale.  Returns
none when no digit is consumed — mirroring the grammar JavaScript parseFloat
accepts after sign handling. -/
def lexDec (cs : List Char) : Option (ℕ × ℤ) :=
  let (ds, r1) := takeDigits cs
  match r1 with
  | '.' :: r2 =>
    let (fs, r3) := takeDigits r2
    if ds.isEmpty ∧ fs.isEmpty then none
    else some (applyExp (digitsVal (ds ++ fs), -(fs.length : ℤ)) r3)
  | _ =>
    if ds.isEmpty then none else some (applyExp (digitsVal ds, 0) r1)

/-- The exact rational value of a decimal magnitude-scale pair. -/
def decToQ (mag : ℕ) (sc : ℤ) : ℚ :=
  if 0 ≤ sc then mkRat ((mag * 10 ^ sc.toNat : ℕ) : ℤ) 1
  else mkRat (mag : ℤ) (10 ^ (-sc).toNat)

/-- Fuel-driven floor of the base-two logarithm, structural in the fuel so the
kernel can evaluate it; any fuel of at least the bit length is enough, and
callers pass the number itself. -/
def log2f : ℕ → ℕ → ℕ
  | 0, _ => 0
  | fuel + 1, n => if n ≤ 1 then 0 else log2f fuel (n / 2) + 1

/-- Floor of the base-two logarithm of a natural number (0 for 0). -/
def natLog2 (n : ℕ) : ℕ := log2f n n

/-- Floor of the base-two logarithm of the positive rational a / b, computed
by shifting a above b and taking integer logarithms. -/
def fracFloorLog2 (a b : ℕ) : ℤ :=
  let s := natLog2 b + 1
  (natLog2 (a * 2 ^ s / b) : ℤ) - (s : ℤ)

/-- Binary64 rounding of the positive rational a / b (round to nearest, ties
to even), with gradual underflow at the subnormal quantum 2 ^ (-1074) and
overflow to positive infinity at 2 ^ 1024. -/
def fitB64Pos (a b : ℕ) : JsNum :=
  let l := fracFloorLog2 a b
  let e : ℤ := max (l - 52) (-1074)
  let scaled : ℕ × ℕ := if 0 ≤ e then (a, b * 2 ^ e.toNat) else (a * 2 ^ (-e).toNat, b)
  let f := scaled.1 / scaled.2
  let r := scaled.1 % scaled.2
  let m : ℕ := if 2 * r < scaled.2 then f
    else if scaled.2 < 2 * r then f + 1
    else if f % 2 = 0 then f else f + 1
  if 0 ≤ e then
    if (m * 2 ^ e.toNat : ℕ) < 2 ^ 1024 then .num (mkRat ((m * 2 ^ e.toNat : ℕ) : ℤ) 1)
    else .inf true
  else .num (mkRat (m : ℤ) (2 ^ (-e).toNat))

/-- Recognize the literal Infinity, returning the remaining characters. -/
def stripInf : List Char → Option (List Char)
  | 'I' :: 'n' :: 'f' :: 'i' :: 'n' :: 'i' :: 't' :: 'y' :: r => some r
  | _ => none

/-- JavaScript parseFloat as used by the source (example.ts lines 254, 275):
skip leading whitespace, optional sign, then either Infinity or the longest
decimal-literal prefix; NaN when nothing numeric is found; finite results are
the binary64 rounding of the exact decimal value. -/
def parseFloat (s : String) : JsNum :=
  let cs := s.data.dropWhile Char.isWhitespace
  let signSplit : Bool × List Char :=
    match cs with
    | '+' :: r => (false, r)
    | '-' :: r => (true, r)
    | r => (false, r)
  match stripInf signSplit.2 with
  | some _ => .inf (!signSplit.1)
  | none =>
    match lexDec signSplit.2 with
    | none => .nan
    | some (mag, sc) =>
      if mag = 0 then .num 0
      else
        let v : JsNum :=
          if 0 ≤ sc then fitB64Pos (mag * 10 ^ sc.toNat) 1
          else fitB64Pos mag (10 ^ (-sc).toNat)
        if signSplit.1 then v.neg else v

/-- The exact decimal value of an amount string (sign and decimal literal, no
rounding): the reference semantics the spec calls "exact decimal arithmetic".
This is the spec-side definition against which the implementation's
parseFloat-based aggregates are compared. -/
def decValue (s : String) : Option ℚ :=
  let cs := s.data.dropWhile Char.isWhitespace
  let signSplit : Bool × List Char :=
    match cs with
    | '+' :: r => (false, r)
    | '-' :: r => (true, r)
    | r => (false, r)
  match lexDec signSplit.2 with
  | none => none
  | some (mag, sc) => some (if signSplit.1 then -(decToQ mag sc) else decToQ mag sc)

example : decValue "0.1" = some (mkRat 1 10) := by decide
example : decValue "100.00" = some 100 := by decide
example : decValue "-30.00" = some (-30) := by decide
example : parseFloat "100.00" = .num 100 := by decide
example : parseFloat "-30.00" = .num (-30) := by decide
example : parseFloat "abc" = .nan := by decide
example : parseFloat "0.1" = .num (mkRat 3602879701896397 36028797018963968) := by decide
example : parseFloat "0.1" ≠ .num (mkRat 1 10) := by decide
example : parseFloat "Infinity" = .inf true := by decide
example : parseFloat "1e3" = .num 1000 := by decide

/-! ### Data model (example.ts lines 46-73) -/

/-- LedgerEntry (example.ts lines 46-51). -/
structure LedgerEntry where
  id : String
  context : String
  currency : String
  amount : String
deriving DecidableEq

/-- BalanceResult (example.ts lines 53-57), with numeric cells at their values. -/
structure BalanceResult where
  total : JsNum
  byContext : List (String × JsNum)
  entryCount : ℕ
deriving DecidableEq

/-- PaginatedResult (example.ts lines 59-63). -/
structure PaginatedResult where
  entries : List LedgerEntry
  nextCursor : String
  hasMore : Bool
deriving DecidableEq

/-- RequiredLedgerConfig (example.ts lines 70-73); keyPref is the source's
keyPrefix field. -/
structure LedgerConfig where
  maxEntriesPerKey : ℕ
  keyPref : String
deriving DecidableEq

/-- DEFAULT_CONFIG (example.ts lines 186-189). -/
def DEFAULT_CONFIG : LedgerConfig := { maxEntriesPerKey := 1000000, keyPref := "ledger" }

/-- The two error classes addEntry raises (example.ts lines 239 and 245). -/
inductive LedgerError where
  | duplicateEntry (entryId : String)
  | limitExceeded (maxEntries : ℕ)
deriving DecidableEq

/-! ### Association-list primitives for the store's hashes -/

/-- Hash field read (Redis HGET). -/
def aget {α : Type} : List (String × α) → String → Option α
  | [], _ => none
  | p :: r, f => if p.1 = f then some p.2 else aget r f

/-- Hash field write (Redis HSET): replace in place, or append a new field. -/
def aset {α : Type} : List (String × α) → String → α → List (String × α)
  | [], f, v => [(f, v)]
  | p :: r, f, v => if p.1 = f then (f, v) :: r else p :: aset r f v

/-- Hash field delete (Redis HDEL). -/
def adel {α : Type} : List (String × α) → String → List (String × α)
  | [], _ => []
  | p :: r, f => if p.1 = f then adel r f else p :: adel r f

/-- Hash field float increment (Redis HINCRBYFLOAT): a missing field counts
as 0, per the store contract (spec section 4.1, hashIncrementFloat). -/
def aincr (l : List (String × JsNum)) (f : String) (d : JsNum) : List (String × JsNum) :=
  aset l f (incrAdd ((aget l f).getD (.num 0)) d)

/-! ### The store

Modelled from the spec (sections 4.1 and 6).  Three namespaces keyed by the
full derived key string: hashes of serialized entries, hashes of numeric
running sums (the ctx keys), and plain keys holding the numeric running total.
Keys of different Redis types live in different namespaces here; for the
colon-free key components of the independence theorem the derived keys of
distinct pairs are pairwise distinct even across types, so the separation is
harmless, and the counterexamples below use collisions within one namespace. -/

structure Store where
  entryH : String → List (String × LedgerEntry)
  numH : String → List (String × JsNum)
  numS : String → Option JsNum

/-- The store before anything was written. -/
def Store.empty : Store := ⟨fun _ => [], fun _ => [], fun _ => none⟩

/-- Point update of one keyed namespace. -/
def fupd {α : Type} (g : String → α) (k : String) (v : α) : String → α :=
  fun x => if x = k then v else g x

/-! ### Key helpers (example.ts lines 211-221) -/

/-- getLedgerKey (example.ts lines 211-213). -/
def getLedgerKey (cfg : LedgerConfig) (accountId currency : String) : String :=
  cfg.keyPref ++ ":" ++ accountId ++ ":" ++ currency

/-- getTotalKey (example.ts lines 215-217). -/
def getTotalKey (cfg : LedgerConfig) (accountId currency : String) : String :=
  cfg.keyPref ++ ":" ++ accountId ++ ":" ++ currency ++ ":total"

/-- getContextKey (example.ts lines 219-221). -/
def getContextKey (cfg : LedgerConfig) (accountId currency : String) : String :=
  cfg.keyPref ++ ":" ++ accountId ++ ":" ++ currency ++ ":ctx"

/-! ### Core operations (example.ts lines 227-286) -/

/-- The grouped write issued by a successful addEntry (example.ts lines
250-256): store the serialized entry under its id, increment the running total
by parseFloat(amount), increment the context's running sum by the same delta.
A missing total key counts as 0 (Redis INCRBYFLOAT semantics; spec section 4.1
incrementFloat). -/
def addMulti (cfg : LedgerConfig) (s : Store) (accountId currency : String)
    (entry : LedgerEntry) : Store :=
  let key := getLedgerKey cfg accountId currency
  let totalKey := getTotalKey cfg accountId currency
  let ctxKey := getContextKey cfg accountId currency
  { entryH := fupd s.entryH key (aset (s.entryH key) entry.id entry),
    numH := fupd s.numH ctxKey (aincr (s.numH ctxKey) entry.context (parseFloat entry.amount)),
    numS := fupd s.numS totalKey
      (some (incrAdd ((s.numS totalKey).getD (.num 0)) (parseFloat entry.amount))) }

/-- addEntry (example.ts lines 227-257): reject a duplicate id (hExists),
reject when the entries hash already holds maxEntriesPerKey fields (hLen),
otherwise issue the grouped write. -/
def addEntry (cfg : LedgerConfig) (s : Store) (accountId currency : String)
    (entry : LedgerEntry) : Except LedgerError Store :=
  let key := getLedgerKey cfg accountId currency
  if (aget (s.entryH key) entry.id).isSome then
    .error (.duplicateEntry entry.id)
  else if cfg.maxEntriesPerKey ≤ (s.entryH key).length then
    .error (.limitExceeded cfg.maxEntriesPerKey)
  else
    .ok (addMulti cfg s accountId currency entry)

/-- removeEntry (example.ts lines 259-286): read the entry to learn amount and
context; absent means false with no write; otherwise one grouped write deletes
the field and decrements total and the context sum by the amount. -/
def removeEntry (cfg : LedgerConfig) (s : Store) (accountId currency entryId : String) :
    Bool × Store :=
  let key := getLedgerKey cfg accountId currency
  let totalKey := getTotalKey cfg accountId currency
  let ctxKey := getContextKey cfg accountId currency
  match aget (s.entryH key) entryId with
  | none => (false, s)
  | some entry =>
    let amount := parseFloat entry.amount
    (true,
      { entryH := fupd s.entryH key (adel (s.entryH key) entryId),
        numH := fupd s.numH ctxKey (aincr (s.numH ctxKey) entry.context amount.neg),
        numS := fupd s.numS totalKey
          (some (incrAdd ((s.numS totalKey).getD (.num 0)) amount.neg)) })

/-! ### Read operations (example.ts lines 292-325) -/

/-- getEntry (example.ts lines 292-300). -/
def getEntry (cfg : LedgerConfig) (s : Store) (accountId currency entryId : String) :
    Option LedgerEntry :=
  aget (s.entryH (getLedgerKey cfg accountId currency)) entryId

/-- The raw read of the total key that getSum performs (example.ts line 304). -/
def getSumRaw (cfg : LedgerConfig) (s : Store) (accountId currency : String) : Option JsNum :=
  s.numS (getTotalKey cfg accountId currency)

/-- getSum (example.ts lines 302-306) at the numeric level: the stored total,
with an absent key reported as the literal "0", i.e. the value 0. -/
def getSumVal (cfg : LedgerConfig) (s : Store) (accountId currency : String) : JsNum :=
  (getSumRaw cfg s accountId currency).getD (.num 0)

/-- getBalance (example.ts lines 308-325): total (or "0"), hLen of the entries
hash, and hGetAll of the ctx hash. -/
def getBalance (cfg : LedgerConfig) (s : Store) (accountId currency : String) : BalanceResult :=
  { total := (s.numS (getTotalKey cfg accountId currency)).getD (.num 0),
    byContext := s.numH (getContextKey cfg accountId currency),
    entryCount := (s.entryH (getLedgerKey cfg accountId currency)).length }

/-! ### Pagination (example.ts lines 331-350) -/

/-- Modelled from the spec (sections 4.3 and 4.1, hashScan): the store's
cursor-based hash scan.  The cursor is a position in the hash ("0" is both the
initial sentinel and the terminator); a page is the next count fields; the
returned cursor is 0 once the scan has reached the end. -/
def hscan (l : List (String × LedgerEntry)) (cursor count : ℕ) :
    List (String × LedgerEntry) × ℕ :=
  ((l.drop cursor).take count, if l.length ≤ cursor + count then 0 else cursor + count)

/-- The store-side decoding of a cursor token: the decimal value of an
all-digit token, 0 otherwise (the scan only ever receives tokens it produced,
which are decimal renderings). -/
def parseCursor (s : String) : ℕ :=
  if (!s.data.isEmpty && s.data.all Char.isDigit) = true then
    s.data.foldl (fun x ch => x * 10 + (ch.toNat - 48)) 0
  else 0

/-- getEntriesPaginated (example.ts lines 331-350): scan one page, deserialize
the values, and report hasMore as nextCursor differing from "0". -/
def getEntriesPaginated (cfg : LedgerConfig) (s : Store) (accountId currency : String)
    (cursor : String) (count : ℕ) : PaginatedResult :=
  let l := s.entryH (getLedgerKey cfg accountId currency)
  let res := hscan l (parseCursor cursor) count
  { entries := res.1.map Prod.snd,
    nextCursor := toString res.2,
    hasMore := toString res.2 != "0" }

/-! ### Utility (example.ts lines 356-363) -/

/-- clearLedger (example.ts lines 356-363): one multi-key delete of the
entries hash, the total key and the ctx hash; deleting absent keys is a no-op
(Redis DEL; spec section 4.2, clearLedger is idempotent). -/
def clearLedger (cfg : LedgerConfig) (s : Store) (accountId currency : String) : Store :=
  { entryH := fupd s.entryH (getLedgerKey cfg accountId currency) [],
    numH := fupd s.numH (getContextKey cfg accountId currency) [],
    numS := fupd s.numS (getTotalKey cfg accountId currency) none }

/-! ### Sequential runs of the mutating operations -/

/-- One call in a sequential history on a fixed (accountId, currency) pair. -/
inductive LOp where
  | addE (entry : LedgerEntry)
  | removeE (entryId : String)

/-- Execute one call, keeping the store unchanged when addEntry throws
(the caller observes the error; the store is as the operation left it). -/
def applyOp (cfg : LedgerConfig) (accountId currency : String) (s : Store) : LOp → Store
  | .addE e =>
    match addEntry cfg s accountId currency e with
    | .ok s2 => s2
    | .error _ => s
  | .removeE i => (removeEntry cfg s accountId currency i).2

/-- Execute a sequential history from the empty store. -/
def runOps (cfg : LedgerConfig) (accountId currency : String) (ops : List LOp) : Store :=
  ops.foldl (applyOp cfg accountId currency) Store.empty

example :
    getSumVal DEFAULT_CONFIG
      (runOps DEFAULT_CONFIG "u1" "usd"
        [.addE ⟨"t1", "deposit", "usd", "100.00"⟩, .addE ⟨"t2", "withdrawal", "usd", "-30.00"⟩])
      "u1" "usd" = .num 70 := by decide

example :
    getBalance DEFAULT_CONFIG
      (runOps DEFAULT_CONFIG "u1" "usd"
        [.addE ⟨"t1", "deposit", "usd", "100.00"⟩, .addE ⟨"t2", "withdrawal", "usd", "-30.00"⟩,
         .removeE "t1"])
      "u1" "usd" =
    { total := .num (-30),
      byContext := [("deposit", .num 0), ("withdrawal", .num (-30))],
      entryCount := 1 } := by decide

/-! ### Association-list lemmas -/

theorem aget_aset {α : Type} (l : List (String × α)) (f g : String) (v : α) :
    aget (aset l f v) g = if g = f then some v else aget l g := by
  induction l with
  | nil =>
    by_cases h : g = f
    · subst h; simp [aset, aget]
    · simp [aset, aget, h, Ne.symm h]
  | cons p r ih =>
    obtain ⟨a, b⟩ := p
    by_cases hp : a = f
    · subst hp
      by_cases hg : g = a
      · subst hg; simp [aset, aget]
      · simp [aset, aget, hg, Ne.symm hg]
    · by_cases hag : a = g
      · subst hag
        simp [aset, aget, hp, Ne.symm hp]
      · simp [aset, aget, hp, hag, ih]

theorem aget_adel {α : Type} (l : List (String × α)) (f g : String) :
    aget (adel l f) g = if g = f then none else aget l g := by
  induction l with
  | nil => simp [adel, aget]
  | cons p r ih =>
    obtain ⟨a, b⟩ := p
    by_cases hp : a = f
    · subst hp
      by_cases hg : g = a
      · subst hg; simp [adel, aget, ih]
      · simp [adel, aget, hg, Ne.symm hg, ih]
    · by_cases hag : a = g
      · subst hag
        simp [adel, aget, hp, Ne.symm hp, ih]
      · simp [adel, aget, hp, hag, ih]

theorem aget_mem {α : Type} {l : List (String × α)} {f : String} {v : α}
    (h : aget l f = some v) : (f, v) ∈ l := by
  induction l with
  | nil => simp [aget] at h
  | cons p r ih =>
    obtain ⟨a, b⟩ := p
    by_cases hp : a = f
    · subst hp
      simp [aget] at h
      subst h
      exact List.mem_cons_self _ _
    · simp only [aget, if_neg hp] at h
      exact List.mem_cons_of_mem _ (ih h)

theorem aget_eq_none {α : Type} {l : List (String × α)} {f : String}
    (h : f ∉ l.map Prod.fst) : aget l f = none := by
  induction l with
  | nil => simp [aget]
  | cons p r ih =>
    simp only [List.map_cons, List.mem_cons] at h
    push_neg at h
    simp [aget, Ne.symm h.1, ih h.2]

theorem aset_fresh {α : Type} {l : List (String × α)} {f : String} (v : α)
    (h : aget l f = none) : aset l f v = l ++ [(f, v)] := by
  induction l with
  | nil => simp [aset]
  | cons p r ih =>
    by_cases hp : p.1 = f
    · simp [aget, hp] at h
    · simp only [aget, if_neg hp] at h
      simp [aset, hp, ih h]

theorem adel_id {α : Type} {l : List (String × α)} {f : String}
    (h : aget l f = none) : adel l f = l := by
  induction l with
  | nil => simp [adel]
  | cons p r ih =>
    by_cases hp : p.1 = f
    · simp [aget, hp] at h
    · simp only [aget, if_neg hp] at h
      simp [adel, hp, ih h]

theorem adel_sublist {α : Type} (l : List (String × α)) (f : String) :
    (adel l f).Sublist l := by
  induction l with
  | nil => simp [adel]
  | cons p r ih =>
    by_cases hp : p.1 = f
    · simp only [adel, if_pos hp]
      exact ih.cons _
    · simp only [adel, if_neg hp]
      exact ih.cons₂ _

/-! ### Aggregate sums over the entries hash -/

/-- The rational value parseFloat assigns to an entry's amount (0 when the
amount does not parse to a finite number; the invariant theorem only uses it
when it does). -/
def amountQ (e : LedgerEntry) : ℚ :=
  match parseFloat e.amount with
  | .num q => q
  | _ => 0

/-- Weighted sum over an association list, folded with kernel-computable
addition. -/
def wsum (w : String × LedgerEntry → ℚ) : List (String × LedgerEntry) → ℚ
  | [] => 0
  | p :: r => qAdd (w p) (wsum w r)

/-- The sum of the parseFloat values of all entries in the entries hash. -/
def entriesSum (l : List (String × LedgerEntry)) : ℚ :=
  wsum (fun p => amountQ p.2) l

/-- The sum of the parseFloat values of the entries with a given context. -/
def ctxSum (l : List (String × LedgerEntry)) (name : String) : ℚ :=
  wsum (fun p => if p.2.context = name then amountQ p.2 else 0) l

theorem wsum_cons (w : String × LedgerEntry → ℚ) (p : String × LedgerEntry)
    (l : List (String × LedgerEntry)) : wsum w (p :: l) = w p + wsum w l := by
  simp [wsum, qAdd_eq]

theorem wsum_append (w : String × LedgerEntry → ℚ) (l1 l2 : List (String × LedgerEntry)) :
    wsum w (l1 ++ l2) = wsum w l1 + wsum w l2 := by
  induction l1 with
  | nil => simp [wsum]
  | cons p r ih =>
    simp only [List.cons_append, wsum_cons, ih]
    ring

theorem wsum_adel (w : String × LedgerEntry → ℚ) {l : List (String × LedgerEntry)}
    {f : String} {e : LedgerEntry} (hn : (l.map Prod.fst).Nodup)
    (hg : aget l f = some e) : wsum w (adel l f) = wsum w l - w (f, e) := by
  induction l with
  | nil => simp [aget] at hg
  | cons p r ih =>
    obtain ⟨a, b⟩ := p
    simp only [List.map_cons, List.nodup_cons] at hn
    by_cases hp : a = f
    · subst hp
      simp [aget] at hg
      subst hg
      have hnone : aget r a = none := aget_eq_none hn.1
      simp [adel, adel_id hnone, wsum_cons]
    · simp only [aget, if_neg hp] at hg
      simp only [adel, if_neg hp, wsum_cons, ih hn.2 hg]
      ring

/-! ### The aggregate invariant maintained by sequential runs -/

/-- An operation whose amount parses to a finite number (the invariant below is
stated for histories of such operations: a NaN or infinite amount poisons the
accumulators irreversibly, see the no-validation theorem). -/
def opOk : LOp → Bool
  | .addE e => (parseFloat e.amount).isNum
  | .removeE _ => true

/-- The invariant relating one pair's aggregates to its entries hash:
the fields are distinct, every stored amount parses to a finite number, the
total cell holds the sum of the parseFloat values of the present entries, and
every context cell holds the corresponding per-context sum. -/
structure PairInv (cfg : LedgerConfig) (accountId currency : String) (s : Store) : Prop where
  nodup : ((s.entryH (getLedgerKey cfg accountId currency)).map Prod.fst).Nodup
  amounts : ∀ p ∈ s.entryH (getLedgerKey cfg accountId currency),
    (parseFloat (LedgerEntry.amount p.2)).isNum = true
  totalEq : getSumVal cfg s accountId currency =
    .num (entriesSum (s.entryH (getLedgerKey cfg accountId currency)))
  ctxEq : ∀ name, (aget (s.numH (getContextKey cfg accountId currency)) name).getD (.num 0) =
    .num (ctxSum (s.entryH (getLedgerKey cfg accountId currency)) name)

theorem pairInv_empty (cfg : LedgerConfig) (accountId currency : String) :
    PairInv cfg accountId currency Store.empty := by
  refine ⟨?_, ?_, ?_, ?_⟩
  · simp [Store.empty]
  · simp [Store.empty]
  · simp [Store.empty, getSumVal, getSumRaw, entriesSum, wsum]
  · intro name
    simp [Store.empty, aget, ctxSum, wsum]

theorem amountQ_eq {e : LedgerEntry} {q : ℚ} (h : parseFloat e.amount = .num q) :
    amountQ e = q := by
  simp [amountQ, h]

theorem isNum_exists {j : JsNum} (h : j.isNum = true) : ∃ q, j = .num q := by
  cases j <;> simp [JsNum.isNum] at h ⊢

theorem not_mem_of_aget_none {α : Type} {l : List (String × α)} {f : String}
    (h : aget l f = none) : f ∉ l.map Prod.fst := by
  induction l with
  | nil => simp
  | cons p r ih =>
    by_cases hp : p.1 = f
    · simp [aget, hp] at h
    · simp only [aget, if_neg hp] at h
      simp [List.mem_cons, Ne.symm hp, ih h]

theorem wsum_singleton (w : String × LedgerEntry → ℚ) (p : String × LedgerEntry) :
    wsum w [p] = w p := by
  simp [wsum, qAdd_eq]

theorem pairInv_applyOp (cfg : LedgerConfig) (accountId currency : String) (s : Store)
    (op : LOp) (hop : opOk op = true) (hinv : PairInv cfg accountId currency s) :
    PairInv cfg accountId currency (applyOp cfg accountId currency s op) := by
  obtain ⟨hnd, ham, htot, hctx⟩ := hinv
  cases op with
  | addE e =>
    simp only [opOk] at hop
    obtain ⟨q, hq⟩ := isNum_exists hop
    by_cases hdup : (aget (s.entryH (getLedgerKey cfg accountId currency)) e.id).isSome
    · exact (by simpa [applyOp, addEntry, hdup] using (⟨hnd, ham, htot, hctx⟩ :
        PairInv cfg accountId currency s))
    · by_cases hlim : cfg.maxEntriesPerKey ≤ (s.entryH (getLedgerKey cfg accountId currency)).length
      · exact (by simpa [applyOp, addEntry, hdup, hlim] using (⟨hnd, ham, htot, hctx⟩ :
          PairInv cfg accountId currency s))
      · have hfresh : aget (s.entryH (getLedgerKey cfg accountId currency)) e.id = none := by
          cases hget : aget (s.entryH (getLedgerKey cfg accountId currency)) e.id with
          | none => rfl
          | some v => rw [hget] at hdup; simp at hdup
        have happ := aset_fresh (l := s.entryH (getLedgerKey cfg accountId currency)) e hfresh
        have hres : applyOp cfg accountId currency s (.addE e) =
            addMulti cfg s accountId currency e := by
          simp [applyOp, addEntry, hdup, hlim]
        have hent : (addMulti cfg s accountId currency e).entryH
            (getLedgerKey cfg accountId currency) =
            s.entryH (getLedgerKey cfg accountId currency) ++ [(e.id, e)] := by
          simp [addMulti, fupd, happ]
        rw [hres]
        refine ⟨?_, ?_, ?_, ?_⟩
        · rw [hent, List.map_append, List.nodup_append]
          refine ⟨hnd, by simp, ?_⟩
          intro x hx
          simp only [List.map_cons, List.map_nil, List.mem_singleton]
          intro hxe
          subst hxe
          exact not_mem_of_aget_none hfresh hx
        · intro p hp
          rw [hent] at hp
          rcases List.mem_append.mp hp with hp | hp
          · exact ham p hp
          · simp only [List.mem_singleton] at hp
            subst hp
            simp [hq, JsNum.isNum]
        · have hcell : (addMulti cfg s accountId currency e).numS
              (getTotalKey cfg accountId currency) =
              some (incrAdd ((s.numS (getTotalKey cfg accountId currency)).getD (.num 0))
                (parseFloat e.amount)) := by
            simp [addMulti, fupd]
          simp only [getSumVal, getSumRaw] at htot ⊢
          rw [hcell, Option.getD_some, htot, hq, hent]
          simp only [incrAdd, entriesSum, wsum_append, wsum_singleton, qAdd_eq,
            amountQ_eq hq]
        · intro name
          have hcell : (addMulti cfg s accountId currency e).numH
              (getContextKey cfg accountId currency) =
              aincr (s.numH (getContextKey cfg accountId currency)) e.context
                (parseFloat e.amount) := by
            simp [addMulti, fupd]
          rw [hcell, hent]
          simp only [aincr, aget_aset]
          by_cases hname : name = e.context
          · subst hname
            simp only [eq_self_iff_true, if_true, Option.getD_some, hctx e.context, hq,
              incrAdd, ctxSum, wsum_append, wsum_singleton, qAdd_eq, amountQ_eq hq]
          · simp only [if_neg hname, hctx name]
            simp only [ctxSum, wsum_append, wsum_singleton,
              if_neg (fun h : e.context = name => hname h.symm), add_zero]
  | removeE i =>
    cases hget : aget (s.entryH (getLedgerKey cfg accountId currency)) i with
    | none =>
      exact (by simpa [applyOp, removeEntry, hget] using (⟨hnd, ham, htot, hctx⟩ :
        PairInv cfg accountId currency s))
    | some entry =>
      obtain ⟨q, hq⟩ := isNum_exists (ham _ (aget_mem hget))
      have hres : (applyOp cfg accountId currency s (.removeE i)).entryH
          (getLedgerKey cfg accountId currency) =
          adel (s.entryH (getLedgerKey cfg accountId currency)) i := by
        simp [applyOp, removeEntry, hget, fupd]
      refine ⟨?_, ?_, ?_, ?_⟩
      · rw [hres]
        exact hnd.sublist ((adel_sublist _ _).map Prod.fst)
      · intro p hp
        rw [hres] at hp
        exact ham p ((adel_sublist _ _).subset hp)
      · have hcell : (applyOp cfg accountId currency s (.removeE i)).numS
            (getTotalKey cfg accountId currency) =
            some (incrAdd ((s.numS (getTotalKey cfg accountId currency)).getD (.num 0))
              (parseFloat entry.amount).neg) := by
          simp [applyOp, removeEntry, hget, fupd]
        simp only [getSumVal, getSumRaw] at htot ⊢
        rw [hcell, Option.getD_some, htot, hq, hres]
        have := wsum_adel (fun p => amountQ p.2) hnd hget
        simp only [entriesSum, this, amountQ_eq hq, JsNum.neg, incrAdd, qAdd_eq]
        norm_num
        ring
      · intro name
        have hcell : (applyOp cfg accountId currency s (.removeE i)).numH
            (getContextKey cfg accountId currency) =
            aincr (s.numH (getContextKey cfg accountId currency)) entry.context
              (parseFloat entry.amount).neg := by
          simp [applyOp, removeEntry, hget, fupd]
        rw [hcell, hres]
        simp only [aincr, aget_aset]
        have hdel := wsum_adel
          (fun p => if p.2.context = name then amountQ p.2 else 0) hnd hget
        by_cases hname : name = entry.context
        · subst hname
          simp only [eq_self_iff_true, if_true, Option.getD_some, hctx entry.context, hq,
            incrAdd, JsNum.neg, ctxSum, hdel, qAdd_eq, amountQ_eq hq]
          ring_nf
        · simp only [if_neg hname, hctx name]
          simp only [ctxSum, hdel, if_neg (fun h : entry.context = name => hname h.symm),
            sub_zero]

theorem pairInv_runOps (cfg : LedgerConfig) (accountId currency : String) (ops : List LOp)
    (h : ops.all opOk = true) :
    PairInv cfg accountId currency (runOps cfg accountId currency ops) := by
  suffices H : ∀ (s : Store), PairInv cfg accountId currency s →
      PairInv cfg accountId currency (ops.foldl (applyOp cfg accountId currency) s) from
    H Store.empty (pairInv_empty cfg accountId currency)
  induction ops with
  | nil => intro s hs; simpa using hs
  | cons op rest ih =>
    simp only [List.all_cons, Bool.and_eq_true] at h
    intro s hs
    exact ih h.2 _ (pairInv_applyOp cfg accountId currency s op h.1 hs)

/-- Claim C1 as stated: after a sequential history on one pair, getSum is
exactly the decimal sum of the amount strings of the present entries.  False:
one addEntry of amount "0.1" stores a total of 3602879701896397 / 2 ^ 55 —
the binary64 rounding produced by parseFloat — which is not the decimal value
1 / 10 of the single present entry's amount string. -/
theorem c1_counterexample :
    decValue "0.1" = some (mkRat 1 10) ∧
    (runOps DEFAULT_CONFIG "u1" "usd" [.addE ⟨"t1", "deposit", "usd", "0.1"⟩]).entryH
        (getLedgerKey DEFAULT_CONFIG "u1" "usd") =
      [("t1", ⟨"t1", "deposit", "usd", "0.1"⟩)] ∧
    getSumVal DEFAULT_CONFIG
        (runOps DEFAULT_CONFIG "u1" "usd" [.addE ⟨"t1", "deposit", "usd", "0.1"⟩])
        "u1" "usd" =
      .num (mkRat 3602879701896397 36028797018963968) ∧
    getSumVal DEFAULT_CONFIG
        (runOps DEFAULT_CONFIG "u1" "usd" [.addE ⟨"t1", "deposit", "usd", "0.1"⟩])
        "u1" "usd" ≠
      .num (mkRat 1 10) := by
  refine ⟨by decide, by decide, by decide, by decide⟩

/-- Claim C1, amended: for a sequential history of addEntry/removeEntry calls
on one pair starting from the empty store, in which every added amount parses
to a finite binary64 number, getSum equals the sum of the parseFloat
(binary64-rounded) values of the currently present entries, and every context
cell of getBalance's byContext equals the per-context sum of those values —
the decimal sum itself exactly when each amount is binary64-representable. -/
theorem c1_invariant (cfg : LedgerConfig) (accountId currency : String) (ops : List LOp)
    (h : ops.all opOk = true) :
    getSumVal cfg (runOps cfg accountId currency ops) accountId currency =
      .num (entriesSum ((runOps cfg accountId currency ops).entryH
        (getLedgerKey cfg accountId currency))) ∧
    ∀ name,
      (aget (getBalance cfg (runOps cfg accountId currency ops) accountId currency).byContext
          name).getD (.num 0) =
        .num (ctxSum ((runOps cfg accountId currency ops).entryH
          (getLedgerKey cfg accountId currency)) name) := by
  obtain ⟨_, _, htot, hctx⟩ := pairInv_runOps cfg accountId currency ops h
  exact ⟨htot, fun name => hctx name⟩

/-- Witness for the amended C1 at a concrete history: add "100.00" and
"-30.00", remove the first; the aggregate equalities hold with sum -30. -/
theorem c1_invariant_witness :
    ([LOp.addE ⟨"t1", "deposit", "usd", "100.00"⟩,
      LOp.addE ⟨"t2", "withdrawal", "usd", "-30.00"⟩,
      LOp.removeE "t1"].all opOk = true) ∧
    getSumVal DEFAULT_CONFIG
        (runOps DEFAULT_CONFIG "u1" "usd"
          [LOp.addE ⟨"t1", "deposit", "usd", "100.00"⟩,
           LOp.addE ⟨"t2", "withdrawal", "usd", "-30.00"⟩,
           LOp.removeE "t1"])
        "u1" "usd" =
      .num (entriesSum ((runOps DEFAULT_CONFIG "u1" "usd"
        [LOp.addE ⟨"t1", "deposit", "usd", "100.00"⟩,
         LOp.addE ⟨"t2", "withdrawal", "usd", "-30.00"⟩,
         LOp.removeE "t1"]).entryH (getLedgerKey DEFAULT_CONFIG "u1" "usd"))) ∧
    getSumVal DEFAULT_CONFIG
        (runOps DEFAULT_CONFIG "u1" "usd"
          [LOp.addE ⟨"t1", "deposit", "usd", "100.00"⟩,
           LOp.addE ⟨"t2", "withdrawal", "usd", "-30.00"⟩,
           LOp.removeE "t1"])
        "u1" "usd" = .num (-30) :=
  ⟨by decide,
   (c1_invariant DEFAULT_CONFIG "u1" "usd"
     [LOp.addE ⟨"t1", "deposit", "usd", "100.00"⟩,
      LOp.addE ⟨"t2", "withdrawal", "usd", "-30.00"⟩,
      LOp.removeE "t1"] (by decide)).1,
   by decide⟩

/-! ### Sequential dedup, limit, round-trip and no-validation properties -/

/-- Claim C3: when an entry with the same id is already present in the pair's
entries map, a sequential addEntry fails with the DuplicateEntry error and the
whole store — entries map, total and byContext included — is unchanged. -/
theorem c3_dedup (cfg : LedgerConfig) (s : Store) (accountId currency : String)
    (e x : LedgerEntry)
    (h : aget (s.entryH (getLedgerKey cfg accountId currency)) e.id = some x) :
    addEntry cfg s accountId currency e = .error (.duplicateEntry e.id) ∧
    applyOp cfg accountId currency s (.addE e) = s := by
  constructor <;> simp [addEntry, applyOp, h]

/-- Witness for C3: after adding t1, adding any entry with id t1 again fails
with DuplicateEntry. -/
theorem c3_dedup_witness :
    aget ((runOps DEFAULT_CONFIG "u1" "usd"
        [.addE ⟨"t1", "deposit", "usd", "100.00"⟩]).entryH
        (getLedgerKey DEFAULT_CONFIG "u1" "usd")) "t1" =
      some ⟨"t1", "deposit", "usd", "100.00"⟩ ∧
    addEntry DEFAULT_CONFIG
        (runOps DEFAULT_CONFIG "u1" "usd" [.addE ⟨"t1", "deposit", "usd", "100.00"⟩])
        "u1" "usd" ⟨"t1", "other", "usd", "5"⟩ =
      .error (.duplicateEntry "t1") :=
  ⟨by decide,
   (c3_dedup DEFAULT_CONFIG
     (runOps DEFAULT_CONFIG "u1" "usd" [.addE ⟨"t1", "deposit", "usd", "100.00"⟩])
     "u1" "usd" ⟨"t1", "other", "usd", "5"⟩ ⟨"t1", "deposit", "usd", "100.00"⟩
     (by decide)).1⟩

/-- Claim C4: the default cap is 1,000,000, and whenever the pair's entries
map holds at least maxEntriesPerKey entries, a sequential addEntry with a
fresh id fails with the LimitExceeded error and the store is unchanged. -/
theorem c4_limit :
    DEFAULT_CONFIG.maxEntriesPerKey = 1000000 ∧
    ∀ (cfg : LedgerConfig) (s : Store) (accountId currency : String) (e : LedgerEntry),
      aget (s.entryH (getLedgerKey cfg accountId currency)) e.id = none →
      cfg.maxEntriesPerKey ≤ (s.entryH (getLedgerKey cfg accountId currency)).length →
      addEntry cfg s accountId currency e = .error (.limitExceeded cfg.maxEntriesPerKey) ∧
      applyOp cfg accountId currency s (.addE e) = s := by
  refine ⟨rfl, fun cfg s accountId currency e hfresh hlen => ?_⟩
  constructor <;> simp [addEntry, applyOp, hfresh, hlen]

/-- Witness for C4: with maxEntriesPerKey 1 and one entry stored, a second
add with a fresh id fails with LimitExceeded. -/
theorem c4_limit_witness :
    aget ((applyOp ⟨1, "ledger"⟩ "u1" "usd" Store.empty
        (.addE ⟨"t1", "deposit", "usd", "1"⟩)).entryH
        (getLedgerKey ⟨1, "ledger"⟩ "u1" "usd")) "t2" = none ∧
    (1 : ℕ) ≤ ((applyOp ⟨1, "ledger"⟩ "u1" "usd" Store.empty
        (.addE ⟨"t1", "deposit", "usd", "1"⟩)).entryH
        (getLedgerKey ⟨1, "ledger"⟩ "u1" "usd")).length ∧
    addEntry ⟨1, "ledger"⟩
        (applyOp ⟨1, "ledger"⟩ "u1" "usd" Store.empty (.addE ⟨"t1", "deposit", "usd", "1"⟩))
        "u1" "usd" ⟨"t2", "deposit", "usd", "1"⟩ =
      .error (.limitExceeded 1) :=
  ⟨by decide, by decide,
   ((c4_limit.2) ⟨1, "ledger"⟩
     (applyOp ⟨1, "ledger"⟩ "u1" "usd" Store.empty (.addE ⟨"t1", "deposit", "usd", "1"⟩))
     "u1" "usd" ⟨"t2", "deposit", "usd", "1"⟩ (by decide) (by decide)).1⟩

/-- Claim C9: a successful addEntry stores the entry under its id, and a
subsequent getEntry on the same pair returns it structurally equal — in
particular the amount string comes back verbatim, untouched by the parseFloat
conversion used for the aggregates. -/
theorem c9_roundtrip (cfg : LedgerConfig) (s : Store) (accountId currency : String)
    (e : LedgerEntry) (s2 : Store)
    (h : addEntry cfg s accountId currency e = .ok s2) :
    getEntry cfg s2 accountId currency e.id = some e := by
  by_cases hdup : (aget (s.entryH (getLedgerKey cfg accountId currency)) e.id).isSome
  · simp [addEntry, hdup] at h
  · by_cases hlim :
      cfg.maxEntriesPerKey ≤ (s.entryH (getLedgerKey cfg accountId currency)).length
    · simp [addEntry, hdup, hlim] at h
    · have h2 : s2 = addMulti cfg s accountId currency e := by
        simp [addEntry, hdup, hlim] at h
        exact h.symm
      subst h2
      simp [getEntry, addMulti, fupd, aget_aset]

/-- Witness for C9: the entry with amount "100.00" is returned verbatim. -/
theorem c9_roundtrip_witness :
    addEntry DEFAULT_CONFIG Store.empty "u1" "usd" ⟨"t1", "deposit", "usd", "100.00"⟩ =
      .ok (addMulti DEFAULT_CONFIG Store.empty "u1" "usd" ⟨"t1", "deposit", "usd", "100.00"⟩) ∧
    getEntry DEFAULT_CONFIG
        (addMulti DEFAULT_CONFIG Store.empty "u1" "usd" ⟨"t1", "deposit", "usd", "100.00"⟩)
        "u1" "usd" "t1" = some ⟨"t1", "deposit", "usd", "100.00"⟩ :=
  ⟨rfl,
   c9_roundtrip DEFAULT_CONFIG Store.empty "u1" "usd" ⟨"t1", "deposit", "usd", "100.00"⟩
     (addMulti DEFAULT_CONFIG Store.empty "u1" "usd" ⟨"t1", "deposit", "usd", "100.00"⟩)
     rfl⟩

/-- Claim C10: addEntry imposes no precondition on the amount string — with a
fresh id and room below the limit it succeeds for every amount, stores the
entry, and applies parseFloat(amount) (NaN for non-numeric strings) to the
total and context accumulators. -/
theorem c10_no_validation (cfg : LedgerConfig) (s : Store) (accountId currency : String)
    (e : LedgerEntry)
    (hfresh : aget (s.entryH (getLedgerKey cfg accountId currency)) e.id = none)
    (hroom : (s.entryH (getLedgerKey cfg accountId currency)).length < cfg.maxEntriesPerKey) :
    addEntry cfg s accountId currency e = .ok (addMulti cfg s accountId currency e) ∧
    getEntry cfg (addMulti cfg s accountId currency e) accountId currency e.id = some e ∧
    getSumVal cfg (addMulti cfg s accountId currency e) accountId currency =
      incrAdd (getSumVal cfg s accountId currency) (parseFloat e.amount) ∧
    aget ((getBalance cfg (addMulti cfg s accountId currency e) accountId currency).byContext)
        e.context =
      some (incrAdd ((aget ((getBalance cfg s accountId currency).byContext) e.context).getD
        (.num 0)) (parseFloat e.amount)) := by
  have hlim : ¬ cfg.maxEntriesPerKey ≤ (s.entryH (getLedgerKey cfg accountId currency)).length :=
    not_le.mpr hroom
  refine ⟨by simp [addEntry, hfresh, hlim], ?_, ?_, ?_⟩
  · simp [getEntry, addMulti, fupd, aget_aset]
  · simp [getSumVal, getSumRaw, addMulti, fupd]
  · simp [getBalance, addMulti, fupd, aincr, aget_aset]

/-- Witness for C10: the malformed amount "abc" is accepted, the entry is
stored, and the total accumulator receives NaN. -/
theorem c10_no_validation_witness :
    aget (Store.empty.entryH (getLedgerKey DEFAULT_CONFIG "u1" "usd")) "t1" = none ∧
    (Store.empty.entryH (getLedgerKey DEFAULT_CONFIG "u1" "usd")).length <
      DEFAULT_CONFIG.maxEntriesPerKey ∧
    addEntry DEFAULT_CONFIG Store.empty "u1" "usd" ⟨"t1", "fees", "usd", "abc"⟩ =
      .ok (addMulti DEFAULT_CONFIG Store.empty "u1" "usd" ⟨"t1", "fees", "usd", "abc"⟩) ∧
    parseFloat "abc" = .nan ∧
    getSumVal DEFAULT_CONFIG
        (addMulti DEFAULT_CONFIG Store.empty "u1" "usd" ⟨"t1", "fees", "usd", "abc"⟩)
        "u1" "usd" = .nan :=
  ⟨by decide, by decide,
   (c10_no_validation DEFAULT_CONFIG Store.empty "u1" "usd" ⟨"t1", "fees", "usd", "abc"⟩
     (by decide) (by decide)).1,
   by decide, by decide⟩

/-! ### The concrete scenario -/

/-- Claim C7: the spec's concrete scenario on the pair ("u1","usd"), settled
at the numeric value of the store's cells (the decValue conjuncts tie each
expected decimal string of the claim to the value proved): after adding
t1 = 100.00 (deposit) and t2 = -30.00 (withdrawal), getBalance is
total 70, byContext deposit 100 / withdrawal -30, entryCount 2; removing t1
returns true, after which getBalance is total -30, byContext deposit 0 /
withdrawal -30, entryCount 1 — the deposit cell lingers at exactly 0. -/
theorem c7_scenario :
    decValue "70.00" = some 70 ∧
    decValue "100.00" = some 100 ∧
    decValue "-30.00" = some (-30) ∧
    decValue "0.00" = some 0 ∧
    getBalance DEFAULT_CONFIG
        (runOps DEFAULT_CONFIG "u1" "usd"
          [.addE ⟨"t1", "deposit", "usd", "100.00"⟩,
           .addE ⟨"t2", "withdrawal", "usd", "-30.00"⟩])
        "u1" "usd" =
      { total := .num 70,
        byContext := [("deposit", .num 100), ("withdrawal", .num (-30))],
        entryCount := 2 } ∧
    (removeEntry DEFAULT_CONFIG
        (runOps DEFAULT_CONFIG "u1" "usd"
          [.addE ⟨"t1", "deposit", "usd", "100.00"⟩,
           .addE ⟨"t2", "withdrawal", "usd", "-30.00"⟩])
        "u1" "usd" "t1").1 = true ∧
    getBalance DEFAULT_CONFIG
        (runOps DEFAULT_CONFIG "u1" "usd"
          [.addE ⟨"t1", "deposit", "usd", "100.00"⟩,
           .addE ⟨"t2", "withdrawal", "usd", "-30.00"⟩,
           .removeE "t1"])
        "u1" "usd" =
      { total := .num (-30),
        byContext := [("deposit", .num 0), ("withdrawal", .num (-30))],
        entryCount := 1 } := by
  exact ⟨by decide, by decide, by decide, by decide, by decide, by decide, by decide⟩

/-! ### Concurrent addEntry: the check-then-act race

Each await point of addEntry (example.ts lines 237, 243, 251-256) is one
atomic store command; the MULTI block is atomic as a unit.  An in-flight call
is a phase machine stepping through the hExists read, the hLen read, and the
grouped write; concurrent calls interleave these atomic steps. -/

/-- The phase of one in-flight addEntry call. -/
inductive AddPhase where
  | start
  | passedDup
  | passedLimit
  | succeeded
  | failed (err : LedgerError)
deriving DecidableEq

/-- One atomic step of an in-flight addEntry call against the store. -/
def addStep (cfg : LedgerConfig) (accountId currency : String) (e : LedgerEntry) :
    AddPhase × Store → AddPhase × Store
  | (.start, s) =>
    if (aget (s.entryH (getLedgerKey cfg accountId currency)) e.id).isSome then
      (.failed (.duplicateEntry e.id), s)
    else (.passedDup, s)
  | (.passedDup, s) =>
    if cfg.maxEntriesPerKey ≤ (s.entryH (getLedgerKey cfg accountId currency)).length then
      (.failed (.limitExceeded cfg.maxEntriesPerKey), s)
    else (.passedLimit, s)
  | (.passedLimit, s) => (.succeeded, addMulti cfg s accountId currency e)
  | (ph, s) => (ph, s)

/-- Running one call's steps alone agrees with the sequential addEntry. -/
theorem addStep_run_alone (cfg : LedgerConfig) (accountId currency : String)
    (e : LedgerEntry) (s : Store) :
    addStep cfg accountId currency e (addStep cfg accountId currency e
      (addStep cfg accountId currency e (.start, s))) =
    (match addEntry cfg s accountId currency e with
     | .ok s2 => (.succeeded, s2)
     | .error err => (.failed err, s)) := by
  by_cases hdup : (aget (s.entryH (getLedgerKey cfg accountId currency)) e.id).isSome
  · simp [addStep, addEntry, hdup]
  · by_cases hlim :
      cfg.maxEntriesPerKey ≤ (s.entryH (getLedgerKey cfg accountId currency)).length
    · simp [addStep, addEntry, hdup, hlim]
    · simp [addStep, addEntry, hdup, hlim]

/-- Two concurrent addEntry calls on the same pair, interleaved by a schedule
(false steps the first call, true the second). -/
def runSched (cfg : LedgerConfig) (accountId currency : String) (e1 e2 : LedgerEntry) :
    List Bool → AddPhase × AddPhase × Store → AddPhase × AddPhase × Store
  | [], st => st
  | b :: rest, (p1, p2, s) =>
    if b then
      let r := addStep cfg accountId currency e2 (p2, s)
      runSched cfg accountId currency e1 e2 rest (p1, r.1, r.2)
    else
      let r := addStep cfg accountId currency e1 (p1, s)
      runSched cfg accountId currency e1 e2 rest (r.1, p2, r.2)

/-- Claim C2 evaluated at its failing interleaving: two concurrent addEntry
calls sharing the id "t1" (amount "100.00"), scheduled as
A.hExists, B.hExists, A.hLen, B.hLen, A.MULTI, B.MULTI.  Both calls pass the
existence check before either writes, so both succeed — no DuplicateEntry is
raised — the entry is stored once, and the total cell is double-incremented to
200 while the parseFloat sum of the present entries is 100.  This is the
check-then-act race the spec requires a correct implementation to close. -/
theorem c2_race :
    (runSched DEFAULT_CONFIG "u1" "usd"
        ⟨"t1", "deposit", "usd", "100.00"⟩ ⟨"t1", "deposit", "usd", "100.00"⟩
        [false, true, false, true, false, true]
        (.start, .start, Store.empty)).1 = .succeeded ∧
    (runSched DEFAULT_CONFIG "u1" "usd"
        ⟨"t1", "deposit", "usd", "100.00"⟩ ⟨"t1", "deposit", "usd", "100.00"⟩
        [false, true, false, true, false, true]
        (.start, .start, Store.empty)).2.1 = .succeeded ∧
    (getBalance DEFAULT_CONFIG
        (runSched DEFAULT_CONFIG "u1" "usd"
          ⟨"t1", "deposit", "usd", "100.00"⟩ ⟨"t1", "deposit", "usd", "100.00"⟩
          [false, true, false, true, false, true]
          (.start, .start, Store.empty)).2.2 "u1" "usd").entryCount = 1 ∧
    getSumVal DEFAULT_CONFIG
        (runSched DEFAULT_CONFIG "u1" "usd"
          ⟨"t1", "deposit", "usd", "100.00"⟩ ⟨"t1", "deposit", "usd", "100.00"⟩
          [false, true, false, true, false, true]
          (.start, .start, Store.empty)).2.2 "u1" "usd" = .num 200 ∧
    entriesSum ((runSched DEFAULT_CONFIG "u1" "usd"
        ⟨"t1", "deposit", "usd", "100.00"⟩ ⟨"t1", "deposit", "usd", "100.00"⟩
        [false, true, false, true, false, true]
        (.start, .start, Store.empty)).2.2.entryH
        (getLedgerKey DEFAULT_CONFIG "u1" "usd")) = 100 := by
  refine ⟨by decide, by decide, by decide, by decide, by decide⟩

/-! ### Partition independence and the colon-joined key derivation -/

/-- A string containing no colon. -/
def colonFree (s : String) : Bool := s.data.all (fun ch => ch != ':')

theorem colonFree_spec {s : String} (h : colonFree s = true) : ':' ∉ s.data := by
  intro hm
  have := List.all_eq_true.mp h _ hm
  simp at this

theorem splitColon {xs1 ys1 xs2 ys2 : List Char}
    (h1 : ':' ∉ xs1) (h2 : ':' ∉ xs2)
    (h : xs1 ++ ':' :: ys1 = xs2 ++ ':' :: ys2) : xs1 = xs2 ∧ ys1 = ys2 := by
  induction xs1 generalizing xs2 with
  | nil =>
    cases xs2 with
    | nil => simpa using h
    | cons b r2 =>
      rw [List.nil_append, List.cons_append] at h
      injection h with hb hrest
      subst hb
      exact absurd (List.mem_cons_self _ _) h2
  | cons a r1 ih =>
    cases xs2 with
    | nil =>
      rw [List.cons_append, List.nil_append] at h
      injection h with ha hrest
      subst ha
      exact absurd (List.mem_cons_self _ _) h1
    | cons b r2 =>
      rw [List.cons_append, List.cons_append] at h
      injection h with hab h
      subst hab
      have h1' : ':' ∉ r1 := fun hm => h1 (List.mem_cons_of_mem _ hm)
      have h2' : ':' ∉ r2 := fun hm => h2 (List.mem_cons_of_mem _ hm)
      obtain ⟨he, hy⟩ := ih h1' h2' h
      exact ⟨by rw [he], hy⟩

theorem getLedgerKey_inj (cfg : LedgerConfig) {a1 c1 a2 c2 : String}
    (h1 : colonFree a1 = true) (h2 : colonFree c1 = true)
    (h3 : colonFree a2 = true) (h4 : colonFree c2 = true)
    (h : getLedgerKey cfg a1 c1 = getLedgerKey cfg a2 c2) : a1 = a2 ∧ c1 = c2 := by
  have hd := congrArg String.data h
  simp only [getLedgerKey, String.data_append, List.append_assoc] at hd
  have hd2 := List.append_cancel_left hd
  simp only [List.singleton_append, List.cons.injEq, true_and] at hd2
  obtain ⟨ha, hc⟩ := splitColon (colonFree_spec h1) (colonFree_spec h3) hd2
  exact ⟨String.ext ha, String.ext hc⟩

theorem getTotalKey_inj (cfg : LedgerConfig) {a1 c1 a2 c2 : String}
    (h1 : colonFree a1 = true) (h3 : colonFree a2 = true)
    (h : getTotalKey cfg a1 c1 = getTotalKey cfg a2 c2) : a1 = a2 ∧ c1 = c2 := by
  have hd := congrArg String.data h
  simp only [getTotalKey, String.data_append, List.append_assoc] at hd
  have hd2 := List.append_cancel_left hd
  simp only [List.singleton_append, List.cons.injEq, true_and] at hd2
  obtain ⟨ha, hy⟩ := splitColon (colonFree_spec h1) (colonFree_spec h3) hd2
  exact ⟨String.ext ha, String.ext (List.append_cancel_right hy)⟩

theorem getContextKey_inj (cfg : LedgerConfig) {a1 c1 a2 c2 : String}
    (h1 : colonFree a1 = true) (h3 : colonFree a2 = true)
    (h : getContextKey cfg a1 c1 = getContextKey cfg a2 c2) : a1 = a2 ∧ c1 = c2 := by
  have hd := congrArg String.data h
  simp only [getContextKey, String.data_append, List.append_assoc] at hd
  have hd2 := List.append_cancel_left hd
  simp only [List.singleton_append, List.cons.injEq, true_and] at hd2
  obtain ⟨ha, hy⟩ := splitColon (colonFree_spec h1) (colonFree_spec h3) hd2
  exact ⟨String.ext ha, String.ext (List.append_cancel_right hy)⟩

/-- The three derived values of one (accountId, currency) pair: its entries
hash, its total cell, and its ctx hash — everything the read operations on the
pair consult. -/
def pairView (cfg : LedgerConfig) (s : Store) (accountId currency : String) :
    List (String × LedgerEntry) × Option JsNum × List (String × JsNum) :=
  (s.entryH (getLedgerKey cfg accountId currency),
   s.numS (getTotalKey cfg accountId currency),
   s.numH (getContextKey cfg accountId currency))

/-- Claim C8, amended: when account ids and currencies contain no colon,
distinct (accountId, currency) pairs have pairwise distinct derived keys, and
every mutating operation on one pair — addEntry (successful or failed),
removeEntry, clearLedger — leaves the other pair's entries map, total and
byContext unchanged. -/
theorem c8_independence (cfg : LedgerConfig) (a1 c1 a2 c2 : String) (s : Store)
    (e : LedgerEntry) (entryId : String)
    (h1 : colonFree a1 = true) (h2 : colonFree c1 = true)
    (h3 : colonFree a2 = true) (h4 : colonFree c2 = true)
    (hne : (a1, c1) ≠ (a2, c2)) :
    getLedgerKey cfg a1 c1 ≠ getLedgerKey cfg a2 c2 ∧
    getTotalKey cfg a1 c1 ≠ getTotalKey cfg a2 c2 ∧
    getContextKey cfg a1 c1 ≠ getContextKey cfg a2 c2 ∧
    pairView cfg (applyOp cfg a1 c1 s (.addE e)) a2 c2 = pairView cfg s a2 c2 ∧
    pairView cfg (removeEntry cfg s a1 c1 entryId).2 a2 c2 = pairView cfg s a2 c2 ∧
    pairView cfg (clearLedger cfg s a1 c1) a2 c2 = pairView cfg s a2 c2 := by
  have hpair : ¬(a1 = a2 ∧ c1 = c2) := by
    intro hx
    exact hne (by rw [hx.1, hx.2])
  have hL : getLedgerKey cfg a1 c1 ≠ getLedgerKey cfg a2 c2 :=
    fun h => hpair (getLedgerKey_inj cfg h1 h2 h3 h4 h)
  have hT : getTotalKey cfg a1 c1 ≠ getTotalKey cfg a2 c2 :=
    fun h => hpair (getTotalKey_inj cfg h1 h3 h)
  have hX : getContextKey cfg a1 c1 ≠ getContextKey cfg a2 c2 :=
    fun h => hpair (getContextKey_inj cfg h1 h3 h)
  have hL' := Ne.symm hL
  have hT' := Ne.symm hT
  have hX' := Ne.symm hX
  have hAM : pairView cfg (addMulti cfg s a1 c1 e) a2 c2 = pairView cfg s a2 c2 := by
    simp [pairView, addMulti, fupd, hL', hT', hX']
  refine ⟨hL, hT, hX, ?_, ?_, ?_⟩
  · by_cases hdup : (aget (s.entryH (getLedgerKey cfg a1 c1)) e.id).isSome
    · simp [applyOp, addEntry, hdup]
    · by_cases hlim : cfg.maxEntriesPerKey ≤ (s.entryH (getLedgerKey cfg a1 c1)).length
      · simp [applyOp, addEntry, hdup, hlim]
      · have : applyOp cfg a1 c1 s (.addE e) = addMulti cfg s a1 c1 e := by
          simp [applyOp, addEntry, hdup, hlim]
        rw [this]
        exact hAM
  · cases hget : aget (s.entryH (getLedgerKey cfg a1 c1)) entryId with
    | none => simp [removeEntry, hget]
    | some entry => simp [removeEntry, hget, pairView, fupd, hL', hT', hX']
  · simp [clearLedger, pairView, fupd, hL', hT', hX']

/-- Witness for the amended C8: an addEntry on ("u1","usd") leaves the view of
("u2","usd") unchanged, and the derived keys of the two pairs differ. -/
theorem c8_independence_witness :
    colonFree "u1" = true ∧ colonFree "usd" = true ∧ colonFree "u2" = true ∧
    (("u1", "usd") ≠ (("u2", "usd") : String × String)) ∧
    getLedgerKey DEFAULT_CONFIG "u1" "usd" ≠ getLedgerKey DEFAULT_CONFIG "u2" "usd" ∧
    pairView DEFAULT_CONFIG
        (applyOp DEFAULT_CONFIG "u1" "usd" Store.empty
          (.addE ⟨"t1", "deposit", "usd", "100.00"⟩))
        "u2" "usd" =
      pairView DEFAULT_CONFIG Store.empty "u2" "usd" :=
  ⟨by decide, by decide, by decide, by decide,
   (c8_independence DEFAULT_CONFIG "u1" "usd" "u2" "usd" Store.empty
     ⟨"t1", "deposit", "usd", "100.00"⟩ "x" (by decide) (by decide) (by decide) (by decide)
     (by decide)).1,
   (c8_independence DEFAULT_CONFIG "u1" "usd" "u2" "usd" Store.empty
     ⟨"t1", "deposit", "usd", "100.00"⟩ "x" (by decide) (by decide) (by decide) (by decide)
     (by decide)).2.2.2.1⟩

/-- Claim C8 as stated — for arbitrary account id and currency strings — is
false: the colon-joined derivation maps the distinct pairs ("a:b","c") and
("a","b:c") to the same derived key, so an addEntry on the first pair changes
the entry count observed through the second. -/
theorem c8_counterexample :
    (("a:b", "c") ≠ (("a", "b:c") : String × String)) ∧
    getLedgerKey DEFAULT_CONFIG "a:b" "c" = getLedgerKey DEFAULT_CONFIG "a" "b:c" ∧
    (getBalance DEFAULT_CONFIG Store.empty "a" "b:c").entryCount = 0 ∧
    (getBalance DEFAULT_CONFIG
        (applyOp DEFAULT_CONFIG "a:b" "c" Store.empty
          (.addE ⟨"t1", "deposit", "c", "1"⟩))
        "a" "b:c").entryCount = 1 := by
  refine ⟨by decide, by decide, by decide, by decide⟩

/-! ### clearLedger: completeness and idempotence -/

theorem fupd_fupd {α : Type} (g : String → α) (k : String) (v w : α) :
    fupd (fupd g k v) k w = fupd g k w := by
  funext x
  by_cases h : x = k <;> simp [fupd, h]

/-- addEntry reads and writes only the three derived cells of its pair, so its
outcome — error included — and the pair's resulting view depend only on the
pair's view. -/
theorem addEntry_pairView_congr (cfg : LedgerConfig) (s t : Store)
    (accountId currency : String) (e : LedgerEntry)
    (h : pairView cfg s accountId currency = pairView cfg t accountId currency) :
    (addEntry cfg s accountId currency e).map
        (fun s2 => pairView cfg s2 accountId currency) =
      (addEntry cfg t accountId currency e).map
        (fun s2 => pairView cfg s2 accountId currency) := by
  simp only [pairView, Prod.mk.injEq] at h
  obtain ⟨hE, hS, hH⟩ := h
  by_cases hdup : (aget (t.entryH (getLedgerKey cfg accountId currency)) e.id).isSome
  · simp [addEntry, hE, hdup]
  · by_cases hlim :
      cfg.maxEntriesPerKey ≤ (t.entryH (getLedgerKey cfg accountId currency)).length
    · simp [addEntry, hE, hdup, hlim]
    · simp only [addEntry, hE, hdup, hlim, if_false, Bool.false_eq_true, ite_false,
        Except.map]
      simp [pairView, addMulti, fupd, hE, hS, hH]

/-- Claim C5: after clearLedger the pair reads as never written — the total
key is absent so getSum returns the literal "0" (value 0), entryCount is 0,
byContext is empty — a subsequent addEntry on the pair has exactly the outcome
and pair effect it has on the empty store, and clearLedger is idempotent
(deleting absent keys succeeds). -/
theorem c5_clear (cfg : LedgerConfig) (s : Store) (accountId currency : String) :
    getSumRaw cfg (clearLedger cfg s accountId currency) accountId currency = none ∧
    getSumVal cfg (clearLedger cfg s accountId currency) accountId currency = .num 0 ∧
    (getBalance cfg (clearLedger cfg s accountId currency) accountId currency).entryCount
      = 0 ∧
    (getBalance cfg (clearLedger cfg s accountId currency) accountId currency).byContext
      = [] ∧
    (∀ e, (addEntry cfg (clearLedger cfg s accountId currency) accountId currency e).map
        (fun s2 => pairView cfg s2 accountId currency) =
      (addEntry cfg Store.empty accountId currency e).map
        (fun s2 => pairView cfg s2 accountId currency)) ∧
    clearLedger cfg (clearLedger cfg s accountId currency) accountId currency =
      clearLedger cfg s accountId currency := by
  refine ⟨?_, ?_, ?_, ?_, ?_, ?_⟩
  · simp [getSumRaw, clearLedger, fupd]
  · simp [getSumVal, getSumRaw, clearLedger, fupd]
  · simp [getBalance, clearLedger, fupd]
  · simp [getBalance, clearLedger, fupd]
  · intro e
    apply addEntry_pairView_congr
    simp [pairView, clearLedger, fupd, Store.empty]
  · simp [clearLedger, fupd_fupd]

/-! ### Pagination: cursor round-trip and completeness -/

theorem digitChar_isDigit {m : ℕ} (h : m < 10) : (Nat.digitChar m).isDigit = true := by
  interval_cases m <;> decide

theorem digitChar_toNat {m : ℕ} (h : m < 10) : (Nat.digitChar m).toNat - 48 = m := by
  interval_cases m <;> decide

theorem toDigitsCore_foldl (fuel : ℕ) :
    ∀ (n : ℕ) (ds : List Char) (a : ℕ), n < fuel →
    ∃ k, 1 ≤ k ∧
      (Nat.toDigitsCore 10 fuel n ds).foldl (fun x ch => x * 10 + (ch.toNat - 48)) a =
        ds.foldl (fun x ch => x * 10 + (ch.toNat - 48)) (a * 10 ^ k + n) := by
  induction fuel with
  | zero => intro n ds a h; omega
  | succ fuel ih =>
    intro n ds a h
    simp only [Nat.toDigitsCore]
    by_cases h0 : n / 10 = 0
    · rw [if_pos h0]
      refine ⟨1, le_refl 1, ?_⟩
      simp only [List.foldl_cons]
      congr 1
      rw [digitChar_toNat (Nat.mod_lt n (by norm_num))]
      rw [pow_one]
      omega
    · rw [if_neg h0]
      have hlt : n / 10 < fuel := by omega
      obtain ⟨k, hk1, hk⟩ := ih (n / 10) (Nat.digitChar (n % 10) :: ds) a hlt
      refine ⟨k + 1, by omega, ?_⟩
      rw [hk]
      simp only [List.foldl_cons]
      congr 1
      rw [digitChar_toNat (Nat.mod_lt n (by norm_num))]
      rw [pow_succ, ← mul_assoc]
      generalize a * 10 ^ k = b
      omega

theorem toDigitsCore_digits (fuel : ℕ) :
    ∀ (n : ℕ) (ds : List Char), (∀ ch ∈ ds, ch.isDigit = true) →
    ∀ ch ∈ Nat.toDigitsCore 10 fuel n ds, ch.isDigit = true := by
  induction fuel with
  | zero => intro n ds hds; simpa [Nat.toDigitsCore] using hds
  | succ fuel ih =>
    intro n ds hds ch hch
    simp only [Nat.toDigitsCore] at hch
    by_cases h0 : n / 10 = 0
    · rw [if_pos h0] at hch
      rcases List.mem_cons.mp hch with hch | hch
      · subst hch; exact digitChar_isDigit (Nat.mod_lt n (by norm_num))
      · exact hds ch hch
    · rw [if_neg h0] at hch
      refine ih (n / 10) _ ?_ ch hch
      intro c hc
      rcases List.mem_cons.mp hc with hc | hc
      · subst hc; exact digitChar_isDigit (Nat.mod_lt n (by norm_num))
      · exact hds c hc

theorem toDigitsCore_ne_nil (fuel : ℕ) : ∀ (n : ℕ) (ds : List Char), n < fuel →
    Nat.toDigitsCore 10 fuel n ds ≠ [] := by
  induction fuel with
  | zero => intro n ds h; omega
  | succ fuel ih =>
    intro n ds h
    simp only [Nat.toDigitsCore]
    by_cases h0 : n / 10 = 0
    · rw [if_pos h0]; simp
    · rw [if_neg h0]
      exact ih (n / 10) _ (by omega)

/-- The decimal rendering of a natural number decodes back to it: the model's
pagination cursors survive the string round trip. -/
theorem parseCursor_toString (n : ℕ) : parseCursor (toString n) = n := by
  have hdata : (toString n).data = Nat.toDigitsCore 10 (n + 1) n [] := rfl
  have hne := toDigitsCore_ne_nil (n + 1) n [] (by omega)
  have hdig := toDigitsCore_digits (n + 1) n [] (by simp)
  obtain ⟨k, hk1, hk⟩ := toDigitsCore_foldl (n + 1) n [] 0 (by omega)
  simp only [List.foldl_nil] at hk
  unfold parseCursor
  rw [hdata]
  have hcond : (!(Nat.toDigitsCore 10 (n + 1) n []).isEmpty &&
      (Nat.toDigitsCore 10 (n + 1) n []).all Char.isDigit) = true := by
    rw [Bool.and_eq_true, Bool.not_eq_true']
    constructor
    · cases hl : Nat.toDigitsCore 10 (n + 1) n [] with
      | nil => exact absurd hl hne
      | cons a r => rfl
    · rw [List.all_eq_true]
      exact hdig
  rw [if_pos hcond, hk]
  simp

theorem toString_nat_inj_zero {n : ℕ} (h : toString n = "0") : n = 0 := by
  have h1 := parseCursor_toString n
  rw [h] at h1
  have h2 : parseCursor "0" = 0 := by decide
  omega

/-- The caller's pagination loop: call getEntriesPaginated, collect the page,
and continue with the returned cursor while hasMore.  The fuel only bounds the
number of pages; the completeness theorem supplies one page per stored entry,
which is always enough for a positive page size. -/
def paginateAll (cfg : LedgerConfig) (s : Store) (accountId currency : String)
    (count : ℕ) : ℕ → String → List LedgerEntry
  | 0, _ => []
  | fuel + 1, cursor =>
    let r := getEntriesPaginated cfg s accountId currency cursor count
    if r.hasMore then
      r.entries ++ paginateAll cfg s accountId currency count fuel r.nextCursor
    else r.entries

theorem paginateAll_drop (cfg : LedgerConfig) (s : Store) (accountId currency : String)
    (count : ℕ) (h : 1 ≤ count) :
    ∀ (fuel k : ℕ),
      (s.entryH (getLedgerKey cfg accountId currency)).length ≤ k + fuel * count →
      paginateAll cfg s accountId currency count fuel (toString k) =
        ((s.entryH (getLedgerKey cfg accountId currency)).drop k).map Prod.snd := by
  intro fuel
  induction fuel with
  | zero =>
    intro k hk
    simp only [Nat.zero_mul, Nat.add_zero] at hk
    rw [List.drop_eq_nil_of_le hk]
    simp [paginateAll]
  | succ fuel ih =>
    intro k hk
    simp only [paginateAll, getEntriesPaginated, hscan, parseCursor_toString]
    by_cases hend :
      (s.entryH (getLedgerKey cfg accountId currency)).length ≤ k + count
    · rw [if_pos hend]
      have hdropLen :
          ((s.entryH (getLedgerKey cfg accountId currency)).drop k).length ≤ count := by
        rw [List.length_drop]
        omega
      simp only [List.take_of_length_le hdropLen]
      have hzero : (toString (0 : ℕ)) = "0" := rfl
      simp [hzero]
    · rw [if_neg hend]
      have hne0 : k + count ≠ 0 := by omega
      have hasMoreTrue : (toString (k + count) != "0") = true := by
        rw [bne_iff_ne]
        intro hq
        exact hne0 (toString_nat_inj_zero hq)
      simp only [hasMoreTrue, if_true]
      rw [ih (k + count) (by
        have := hk
        rw [Nat.succ_mul] at this
        omega)]
      rw [← List.map_append]
      congr 1
      have hdd : (s.entryH (getLedgerKey cfg accountId currency)).drop (k + count) =
          ((s.entryH (getLedgerKey cfg accountId currency)).drop k).drop count := by
        rw [List.drop_drop]
      rw [hdd, List.take_append_drop]

/-- Claim C6: with no concurrent mutation and a positive page size, starting
getEntriesPaginated from the sentinel cursor "0" and repeatedly passing back
nextCursor while hasMore collects exactly the stored entries, each exactly
once; and on every page hasMore holds exactly when nextCursor differs from
"0". -/
theorem c6_pagination (cfg : LedgerConfig) (s : Store) (accountId currency : String)
    (count : ℕ) (h : 1 ≤ count) :
    paginateAll cfg s accountId currency count
        ((s.entryH (getLedgerKey cfg accountId currency)).length + 1) "0" =
      (s.entryH (getLedgerKey cfg accountId currency)).map Prod.snd ∧
    ∀ cursor : String,
      ((getEntriesPaginated cfg s accountId currency cursor count).hasMore = true ↔
       (getEntriesPaginated cfg s accountId currency cursor count).nextCursor ≠ "0") := by
  constructor
  · have h0 : ("0" : String) = toString (0 : ℕ) := rfl
    rw [h0]
    rw [paginateAll_drop cfg s accountId currency count h _ 0 (by
      have h1 := Nat.mul_le_mul_left
        ((s.entryH (getLedgerKey cfg accountId currency)).length + 1) h
      omega)]
    simp
  · intro cursor
    simp [getEntriesPaginated, bne_iff_ne]

/-- Witness for C6: three entries paginated two at a time — two pages, all
three entries collected exactly once. -/
theorem c6_pagination_witness :
    (1 : ℕ) ≤ 2 ∧
    (getEntriesPaginated DEFAULT_CONFIG
      (runOps DEFAULT_CONFIG "u1" "usd"
        [.addE ⟨"t1", "deposit", "usd", "1"⟩, .addE ⟨"t2", "deposit", "usd", "2"⟩,
         .addE ⟨"t3", "payout", "usd", "3"⟩])
      "u1" "usd" "0" 2).hasMore = true ∧
    paginateAll DEFAULT_CONFIG
        (runOps DEFAULT_CONFIG "u1" "usd"
          [.addE ⟨"t1", "deposit", "usd", "1"⟩, .addE ⟨"t2", "deposit", "usd", "2"⟩,
           .addE ⟨"t3", "payout", "usd", "3"⟩])
        "u1" "usd" 2
        (((runOps DEFAULT_CONFIG "u1" "usd"
          [.addE ⟨"t1", "deposit", "usd", "1"⟩, .addE ⟨"t2", "deposit", "usd", "2"⟩,
           .addE ⟨"t3", "payout", "usd", "3"⟩]).entryH
          (getLedgerKey DEFAULT_CONFIG "u1" "usd")).length + 1) "0" =
      ((runOps DEFAULT_CONFIG "u1" "usd"
        [.addE ⟨"t1", "deposit", "usd", "1"⟩, .addE ⟨"t2", "deposit", "usd", "2"⟩,
         .addE ⟨"t3", "payout", "usd", "3"⟩]).entryH
        (getLedgerKey DEFAULT_CONFIG "u1" "usd")).map Prod.snd :=
  ⟨by decide, by decide,
   (c6_pagination DEFAULT_CONFIG
     (runOps DEFAULT_CONFIG "u1" "usd"
       [.addE ⟨"t1", "deposit", "usd", "1"⟩, .addE ⟨"t2", "deposit", "usd", "2"⟩,
        .addE ⟨"t3", "payout", "usd", "3"⟩])
     "u1" "usd" 2 (by decide)).1⟩
